import Mathlib

/-!
Shallow embedding of the dependency-graph visualization core of this
repository: the metrics block, connected-component search, most-connected
ranking, force-simulation tick guard, pointer hit-testing of the
`DependencyGraph` component, and the language-color lookup of the shared
component schemas.  JavaScript `Map`s are modelled extensionally as partial
functions `String → Option _`; JavaScript numbers are modelled as `ℚ`
(every quantity the claims touch stays finite and exact); the breadth-first
search loop is given explicit fuel, instantiated in `computeMetrics` with a
bound that provably exceeds the number of ids the search can ever enqueue.
-/

namespace DepGraph

/-- A file node (`DependencyGraphNodeSchema`): identity is `id`; `label` and
`language` are the display fields the metrics block reads. -/
structure GNode where
  id : String
  label : String
  language : String
  deriving DecidableEq

/-- A dependency edge (`DependencyGraphEdgeSchema`): ordered pair of node ids
plus a kind tag (`import` / `require` / `internal`). -/
structure GEdge where
  source : String
  target : String
  kind : String
  deriving DecidableEq

/-- The ids of a node list, in input order. -/
def nodeIds (nodes : List GNode) : List String :=
  nodes.map (fun n => n.id)

/-- JS `Map.set`: point update of an extensional map. -/
def mset {α : Type} (m : String → Option α) (k : String) (v : α) :
    String → Option α :=
  fun x => if x = k then some v else m x

/-- The three maps the metrics block builds in one pass:
`inDegree`, `outDegree` and the undirected adjacency list. -/
structure DegState where
  inDeg : String → Option Nat
  outDeg : String → Option Nat
  adj : String → Option (List String)

/-- The `props.nodes.forEach` initialisation: every node id is keyed with
in-degree 0, out-degree 0 and an empty adjacency list (a duplicate id simply
rewrites the same initial values). -/
def initMaps (nodes : List GNode) : DegState :=
  nodes.foldl
    (fun s n =>
      { inDeg := mset s.inDeg n.id 0,
        outDeg := mset s.outDeg n.id 0,
        adj := mset s.adj n.id [] })
    ⟨fun _ => none, fun _ => none, fun _ => none⟩

/-- JS `adjList.get(k)?.push(v)`: append `v` to the list at key `k` when the
key is present, do nothing otherwise. -/
def pushAdj (adj : String → Option (List String)) (k v : String) :
    String → Option (List String) :=
  match adj k with
  | some l => mset adj k (l ++ [v])
  | none => adj

/-- One step of the `props.edges.forEach` pass: increment the target's
in-degree and the source's out-degree (creating the key when absent, as JS
`Map.set` does), then push both directions into the adjacency lists of the
keys that exist. -/
def applyEdge (s : DegState) (e : GEdge) : DegState :=
  { inDeg := mset s.inDeg e.target ((s.inDeg e.target).getD 0 + 1),
    outDeg := mset s.outDeg e.source ((s.outDeg e.source).getD 0 + 1),
    adj := pushAdj (pushAdj s.adj e.source e.target) e.target e.source }

/-- The degree/adjacency state after both `forEach` passes. -/
def buildState (nodes : List GNode) (edges : List GEdge) : DegState :=
  edges.foldl applyEdge (initMaps nodes)

/-- The `neighbors.forEach` body of the BFS: for each neighbour not yet
visited, add it to the visited set and push it onto the queue.  The
accumulator is the pair `(visited, queue)`. -/
def visitNbrs (acc : List String × List String) (nbrs : List String) :
    List String × List String :=
  nbrs.foldl
    (fun p nx => if nx ∈ p.1 then p else (p.1 ++ [nx], p.2 ++ [nx]))
    acc

/-- The `while (queue.length > 0)` BFS loop: shift the queue head, fold its
adjacency-list neighbours through `visitNbrs`, repeat.  `fuel` bounds the
number of shifts; `computeMetrics` passes more fuel than ids can ever be
enqueued, so the loop always drains its queue there. -/
def bfsLoop (adj : String → Option (List String)) :
    Nat → List String → List String → List String
  | 0, _, visited => visited
  | _ + 1, [], visited => visited
  | fuel + 1, curr :: rest, visited =>
    let p := visitNbrs (visited, rest) ((adj curr).getD [])
    bfsLoop adj fuel p.2 p.1

/-- The `props.nodes.forEach` component loop: each node id not yet visited
seeds one BFS and increments the component counter.  The accumulator is the
pair `(count, visited)`. -/
def ccFoldAux (adj : String → Option (List String)) (fuel : Nat) :
    List GNode → Nat × List String → Nat × List String
  | [], acc => acc
  | n :: l, acc =>
    if n.id ∈ acc.2 then ccFoldAux adj fuel l acc
    else ccFoldAux adj fuel l (acc.1 + 1, bfsLoop adj fuel [n.id] (acc.2 ++ [n.id]))

/-- One entry of the most-connected ranking: the node spread together with
its total, in- and out-degree. -/
structure RankedNode where
  node : GNode
  degree : Nat
  inD : Nat
  outD : Nat
  deriving DecidableEq

/-- The order the JS comparator `(a, b) => b.degree - a.degree` sorts by:
`a` may stay before `b` exactly when `b.degree ≤ a.degree`. -/
def rGe (a b : RankedNode) : Prop := b.degree ≤ a.degree

instance : DecidableRel rGe :=
  fun a b => inferInstanceAs (Decidable (b.degree ≤ a.degree))

instance : IsTrans RankedNode rGe :=
  ⟨fun _ _ _ h1 h2 => Nat.le_trans h2 h1⟩

instance : IsTotal RankedNode rGe :=
  ⟨fun a b => Nat.le_total b.degree a.degree⟩

/-- The `.map` step of the ranking: attach `degree`, `in` and `out` to each
node, reading the degree maps with the `|| 0` default. -/
def annotate (st : DegState) (nodes : List GNode) : List RankedNode :=
  nodes.map
    (fun n =>
      { node := n,
        degree := (st.inDeg n.id).getD 0 + (st.outDeg n.id).getD 0,
        inD := (st.inDeg n.id).getD 0,
        outD := (st.outDeg n.id).getD 0 })

/-- The full sorted ranking (before `slice(0, 5)`): JS `Array.sort` is
stable, so it is modelled by stable insertion sort under `rGe`. -/
def rankAll (nodes : List GNode) (edges : List GEdge) : List RankedNode :=
  List.insertionSort rGe (annotate (buildState nodes edges) nodes)

/-- The record the metrics `useMemo` returns (numeric fields kept as exact
rationals; the component formats them with `toFixed` only for display). -/
structure Metrics where
  nodeCount : Nat
  edgeCount : Nat
  avgInDegree : ℚ
  density : ℚ
  connectedComponents : Nat
  mostConnected : List RankedNode
  deriving DecidableEq

/-- The metrics `useMemo` body: `null` when the node list is empty (an absent
`nodes` prop is modelled as the empty list), otherwise the metrics record
computed from the two `forEach` passes, the BFS component count and the
ranking. -/
def computeMetrics (nodes : List GNode) (edges : List GEdge) : Option Metrics :=
  if nodes = [] then none
  else
    let nodeCount := nodes.length
    let edgeCount := edges.length
    let st := buildState nodes edges
    let fuel := 1 + nodes.length + 2 * edges.length
    some
      { nodeCount := nodeCount,
        edgeCount := edgeCount,
        avgInDegree := (edgeCount : ℚ) / (nodeCount : ℚ),
        density :=
          if 1 < nodeCount then
            (edgeCount : ℚ) / ((nodeCount : ℚ) * ((nodeCount : ℚ) - 1))
          else 0,
        connectedComponents := (ccFoldAux st.adj fuel nodes (0, [])).1,
        mostConnected := (rankAll nodes edges).take 5 }

/-- The hit-test predicate of `handleMouseMove`: the node has a current
position and the squared distance from the pointer to it is at most 100
(pick radius 10 squared). -/
def withinPick (positions : String → Option (ℚ × ℚ)) (mx my : ℚ)
    (n : GNode) : Bool :=
  match positions n.id with
  | some pos =>
    decide ((mx - pos.1) * (mx - pos.1) + (my - pos.2) * (my - pos.2) ≤ 100)
  | none => false

/-- The `props.nodes.forEach` collision scan of `handleMouseMove`: `found`
is overwritten by every node within the pick radius, so the scan keeps the
match that occurs latest in the node list. -/
def hitTest (nodes : List GNode) (positions : String → Option (ℚ × ℚ))
    (mx my : ℚ) : Option GNode :=
  nodes.foldl
    (fun found n => if withinPick positions mx my n then some n else found)
    none

/-- Position and velocity of one simulated node. -/
structure NodeState where
  x : ℚ
  y : ℚ
  vx : ℚ
  vy : ℚ
  deriving DecidableEq

/-- The damping factor of the integration step. -/
def damping : ℚ := 9 / 10

/-- The boundary padding of the clamp step, in pixels. -/
def padding : ℚ := 60

/-- Integration and clamping for one node and one tick (the end of the
physics block): fold the accumulated force into the velocity with damping,
advance the position, then clamp both axes into
`[padding, dimension - padding]`.  The force components `fx`, `fy` are
parameters: the bounds below hold for every force the repulsion, attraction
and gravity loops could produce. -/
def integrateStep (w h : ℚ) (s : NodeState) (fx fy : ℚ) : NodeState :=
  let vx := (s.vx + fx) * damping
  let vy := (s.vy + fy) * damping
  let x := s.x + vx
  let y := s.y + vy
  { x := max padding (min (w - padding) x),
    y := max padding (min (h - padding) y),
    vx := vx,
    vy := vy }

/-- The per-mount simulation state: the closure-captured tick counter and
the position/velocity map. -/
structure SimState where
  ticks : Nat
  posvel : String → Option NodeState

/-- The fixed tick cap of the simulation (`MAX_TICKS`). -/
def MAX_TICKS : Nat := 300

/-- One `simulate` frame, physics part: the whole physics block (forces,
integration, clamping over all nodes — abstracted as the map transformer
`physics`) runs only while `ticks < MAX_TICKS`, and `ticks` is incremented
exactly then; at or past the cap the frame only redraws and the state is
untouched. -/
def simTick
    (physics : (String → Option NodeState) → (String → Option NodeState))
    (s : SimState) : SimState :=
  if s.ticks < MAX_TICKS then
    { ticks := s.ticks + 1, posvel := physics s.posvel }
  else s

/-- Keep only the first node carrying each id (the id set JS `Map` keys
range over; with the constant initial values this is extensionally the same
map the last-write-wins `Map.set` discipline produces). -/
def dedupByIdAux (seen : List String) : List GNode → List GNode
  | [] => []
  | n :: l =>
    if n.id ∈ seen then dedupByIdAux seen l
    else n :: dedupByIdAux (n.id :: seen) l

/-- `dedupByIdAux` started with nothing seen. -/
def dedupById (nodes : List GNode) : List GNode := dedupByIdAux [] nodes

/-- All edge endpoints, in order: the only ids the adjacency lists can ever
contain, hence a universe for the BFS fuel bound. -/
def endPts : List GEdge → List String
  | [] => []
  | e :: t => e.source :: e.target :: endPts t

/-- One undirected step along some edge of the list. -/
def undirStep (edges : List GEdge) (a b : String) : Prop :=
  ∃ e ∈ edges, (e.source = a ∧ e.target = b) ∨ (e.source = b ∧ e.target = a)

/-- Undirected reachability over the edge list (edge direction ignored). -/
def UndirReach (edges : List GEdge) : String → String → Prop :=
  Relation.ReflTransGen (undirStep edges)

/-- One step along the adjacency map the metrics block builds. -/
def adjStep (adj : String → Option (List String)) (a b : String) : Prop :=
  b ∈ (adj a).getD []

/-- Reachability along the adjacency map. -/
def AdjReach (adj : String → Option (List String)) : String → String → Prop :=
  Relation.ReflTransGen (adjStep adj)

/-- JS `toLowerCase` on one code point, restricted to the basic latin range
the color table's keys live in. -/
def lowerCode (n : Nat) : Nat :=
  if 65 ≤ n ∧ n ≤ 90 then n + 32 else n

/-- JS whitespace code points stripped by `trim` (tab, LF, VT, FF, CR,
space, NBSP, BOM). -/
def isWsCode (n : Nat) : Bool :=
  decide (n = 9 ∨ n = 10 ∨ n = 11 ∨ n = 12 ∨ n = 13 ∨ n = 32 ∨ n = 160 ∨ n = 65279)

/-- JS `String.prototype.toLowerCase`, strings as code-point lists. -/
def toLowerCodes (l : List Nat) : List Nat := l.map lowerCode

/-- JS `String.prototype.trim`: strip whitespace from both ends. -/
def trimCodes (l : List Nat) : List Nat :=
  ((l.dropWhile isWsCode).reverse.dropWhile isWsCode).reverse

/-- Code points of a Lean string literal (used to write the table keys and
color values). -/
def strCodes (s : String) : List Nat := s.data.map Char.toNat

/-- The `LANGUAGE_COLORS` table of the component schemas, in source order. -/
def LANGUAGE_COLORS : List (List Nat × List Nat) :=
  [(strCodes "javascript", strCodes "#f7df1e"),
   (strCodes "typescript", strCodes "#3178c6"),
   (strCodes "jsx", strCodes "#61dafb"),
   (strCodes "tsx", strCodes "#3178c6"),
   (strCodes "html", strCodes "#e34c26"),
   (strCodes "css", strCodes "#563d7c"),
   (strCodes "scss", strCodes "#c6538c"),
   (strCodes "python", strCodes "#3776ab"),
   (strCodes "java", strCodes "#007396"),
   (strCodes "kotlin", strCodes "#7f52ff"),
   (strCodes "c", strCodes "#a8b9cc"),
   (strCodes "cpp", strCodes "#00599c"),
   (strCodes "c++", strCodes "#00599c"),
   (strCodes "csharp", strCodes "#239120"),
   (strCodes "go", strCodes "#00add8"),
   (strCodes "rust", strCodes "#ce422b"),
   (strCodes "ruby", strCodes "#cc342d"),
   (strCodes "php", strCodes "#777bb4"),
   (strCodes "shell", strCodes "#4ee745"),
   (strCodes "bash", strCodes "#4ee745"),
   (strCodes "json", strCodes "#f7df1e"),
   (strCodes "yaml", strCodes "#cb171e"),
   (strCodes "toml", strCodes "#9c4221"),
   (strCodes "xml", strCodes "#0078d4"),
   (strCodes "default", strCodes "#9a9a9a")]

/-- A JS value the lookup `LANGUAGE_COLORS[lang] || LANGUAGE_COLORS['default']`
can produce: a string (an own-property color or the default), or a truthy
non-string value inherited from `Object.prototype` (named by its key), which
the `||` never replaces. -/
inductive JsValue where
  | str : List Nat → JsValue
  | protoInherited : List Nat → JsValue
  deriving DecidableEq

/-- The property names a plain object literal inherits from
`Object.prototype`; reading any of them yields a truthy non-string value
(a function, or the prototype object itself for `__proto__`). -/
def OBJECT_PROTO_KEYS : List (List Nat) :=
  [strCodes "constructor",
   strCodes "hasOwnProperty",
   strCodes "isPrototypeOf",
   strCodes "propertyIsEnumerable",
   strCodes "toLocaleString",
   strCodes "toString",
   strCodes "valueOf",
   strCodes "__proto__",
   strCodes "__defineGetter__",
   strCodes "__defineSetter__",
   strCodes "__lookupGetter__",
   strCodes "__lookupSetter__"]

/-- `getLanguageColor`: lower-case and trim the input, then perform the JS
object lookup `LANGUAGE_COLORS[lang] || LANGUAGE_COLORS['default']`: an own
property (a table entry) is returned first; otherwise the lookup falls
through to `Object.prototype`, whose truthy inherited values are returned
as-is, bypassing the `||`; only a genuinely undefined property falls back
to the `default` entry `#9a9a9a`. -/
def getLanguageColor (language : List Nat) : JsValue :=
  let lang := trimCodes (toLowerCodes language)
  match LANGUAGE_COLORS.find? (fun p => p.1 == lang) with
  | some p => JsValue.str p.2
  | none =>
    if OBJECT_PROTO_KEYS.contains lang then JsValue.protoInherited lang
    else JsValue.str (strCodes "#9a9a9a")

/-- Concrete nodes and edges used for witnesses and counterexamples. -/
def nA : GNode := { id := "A", label := "a.ts", language := "typescript" }

def nB : GNode := { id := "B", label := "b.ts", language := "typescript" }

def nC : GNode := { id := "C", label := "c.py", language := "python" }

def eAB : GEdge := { source := "A", target := "B", kind := "import" }

def eBC : GEdge := { source := "B", target := "C", kind := "import" }

def eXB : GEdge := { source := "X", target := "B", kind := "import" }

/-! ### Helper lemmas -/

theorem foldl_if_or (p : GNode → Bool) :
    ∀ (l : List GNode) (acc : Option GNode),
      l.foldl (fun found n => if p n then some n else found) acc =
        (l.reverse.find? p).or acc := by
  intro l
  induction l with
  | nil => simp
  | cons n t ih =>
    intro acc
    simp only [List.foldl_cons, List.reverse_cons, List.find?_append, ih]
    cases hf : t.reverse.find? p <;> by_cases hp : p n <;>
      simp [hp, Option.or]

theorem visitNbrs_cons (acc : List String × List String) (nx : String)
    (t : List String) :
    visitNbrs acc (nx :: t) =
      visitNbrs (if nx ∈ acc.1 then acc else (acc.1 ++ [nx], acc.2 ++ [nx])) t := rfl

theorem visitNbrs_spec (nbrs : List String) :
    ∀ acc : List String × List String, ∃ added : List String,
      (visitNbrs acc nbrs).1 = acc.1 ++ added ∧
      (visitNbrs acc nbrs).2 = acc.2 ++ added ∧
      added.Nodup ∧
      (∀ x ∈ added, x ∈ nbrs ∧ x ∉ acc.1) := by
  induction nbrs with
  | nil =>
    intro acc
    exact ⟨[], by simp [visitNbrs], by simp [visitNbrs], List.nodup_nil, by simp⟩
  | cons nx t ih =>
    intro acc
    rw [visitNbrs_cons]
    by_cases h : nx ∈ acc.1
    · rw [if_pos h]
      rcases ih acc with ⟨added, h1, h2, h3, h4⟩
      exact ⟨added, h1, h2, h3,
        fun x hx => ⟨List.mem_cons_of_mem _ (h4 x hx).1, (h4 x hx).2⟩⟩
    · rw [if_neg h]
      rcases ih (acc.1 ++ [nx], acc.2 ++ [nx]) with ⟨added, h1, h2, h3, h4⟩
      refine ⟨nx :: added, ?_, ?_, ?_, ?_⟩
      · rw [h1]; simp
      · rw [h2]; simp
      · exact List.nodup_cons.mpr ⟨fun hmem => (h4 nx hmem).2 (by simp), h3⟩
      · intro x hx
        rcases List.mem_cons.mp hx with rfl | hx2
        · exact ⟨List.mem_cons_self _ _, h⟩
        · exact ⟨List.mem_cons_of_mem _ (h4 x hx2).1,
            fun hc => (h4 x hx2).2 (List.mem_append_left _ hc)⟩

theorem visitNbrs_fst_mono {x : String} (acc : List String × List String)
    (nbrs : List String) (hx : x ∈ acc.1) : x ∈ (visitNbrs acc nbrs).1 := by
  rcases visitNbrs_spec nbrs acc with ⟨added, h1, -, -, -⟩
  rw [h1]
  exact List.mem_append_left _ hx

theorem visitNbrs_nbrs_sub {x : String} (acc : List String × List String)
    (nbrs : List String) (hx : x ∈ nbrs) : x ∈ (visitNbrs acc nbrs).1 := by
  induction nbrs generalizing acc with
  | nil => cases hx
  | cons nx t ih =>
    rw [visitNbrs_cons]
    rcases List.mem_cons.mp hx with rfl | hx2
    · by_cases h : x ∈ acc.1
      · rw [if_pos h]
        exact visitNbrs_fst_mono _ _ h
      · rw [if_neg h]
        exact visitNbrs_fst_mono _ _ (by simp)
    · by_cases h : nx ∈ acc.1
      · rw [if_pos h]
        exact ih _ hx2
      · rw [if_neg h]
        exact ih _ hx2

theorem bfsLoop_succ (adj : String → Option (List String)) (f : Nat)
    (curr : String) (rest visited : List String) :
    bfsLoop adj (f + 1) (curr :: rest) visited =
      bfsLoop adj f (visitNbrs (visited, rest) ((adj curr).getD [])).2
        (visitNbrs (visited, rest) ((adj curr).getD [])).1 := rfl

theorem bfsLoop_mono (adj : String → Option (List String)) :
    ∀ (fuel : Nat) (q v : List String) (x : String),
      x ∈ v → x ∈ bfsLoop adj fuel q v := by
  intro fuel
  induction fuel with
  | zero =>
    intro q v x hx
    simpa [bfsLoop] using hx
  | succ f ih =>
    intro q v x hx
    cases q with
    | nil => simpa [bfsLoop] using hx
    | cons curr rest =>
      rw [bfsLoop_succ]
      exact ih _ _ _ (visitNbrs_fst_mono _ _ hx)

theorem dedupByIdAux_cons (seen : List String) (n : GNode) (t : List GNode) :
    dedupByIdAux seen (n :: t) =
      if n.id ∈ seen then dedupByIdAux seen t
      else n :: dedupByIdAux (n.id :: seen) t := rfl

theorem nodeIds_cons (n : GNode) (t : List GNode) :
    nodeIds (n :: t) = n.id :: nodeIds t := rfl

theorem mem_nodeIds_dedupAux (k : String) :
    ∀ (l : List GNode) (seen : List String),
      k ∈ nodeIds (dedupByIdAux seen l) ↔ k ∈ nodeIds l ∧ k ∉ seen := by
  intro l
  induction l with
  | nil =>
    intro seen
    simp [dedupByIdAux, nodeIds]
  | cons n t ih =>
    intro seen
    rw [dedupByIdAux_cons]
    by_cases h : n.id ∈ seen
    · rw [if_pos h, ih, nodeIds_cons]
      simp only [List.mem_cons]
      constructor
      · rintro ⟨hk, hs⟩
        exact ⟨Or.inr hk, hs⟩
      · rintro ⟨hor, hs⟩
        rcases hor with rfl | hk
        · exact absurd h hs
        · exact ⟨hk, hs⟩
    · rw [if_neg h, nodeIds_cons, nodeIds_cons]
      simp only [List.mem_cons, ih, List.mem_cons]
      by_cases hk : k = n.id <;> simp [hk, h]

theorem degState_eq (a b : DegState) (h1 : a.inDeg = b.inDeg)
    (h2 : a.outDeg = b.outDeg) (h3 : a.adj = b.adj) : a = b := by
  cases a
  cases b
  cases h1
  cases h2
  cases h3
  rfl

theorem initMaps_spec (nodes : List GNode) :
    ∀ k : String,
      ((initMaps nodes).inDeg k = if k ∈ nodeIds nodes then some 0 else none) ∧
      ((initMaps nodes).outDeg k = if k ∈ nodeIds nodes then some 0 else none) ∧
      ((initMaps nodes).adj k = if k ∈ nodeIds nodes then some [] else none) := by
  have main : ∀ (l : List GNode) (s : DegState) (k : String),
      ((l.foldl (fun s n =>
          { inDeg := mset s.inDeg n.id 0,
            outDeg := mset s.outDeg n.id 0,
            adj := mset s.adj n.id [] }) s).inDeg k =
        if k ∈ nodeIds l then some 0 else s.inDeg k) ∧
      ((l.foldl (fun s n =>
          { inDeg := mset s.inDeg n.id 0,
            outDeg := mset s.outDeg n.id 0,
            adj := mset s.adj n.id [] }) s).outDeg k =
        if k ∈ nodeIds l then some 0 else s.outDeg k) ∧
      ((l.foldl (fun s n =>
          { inDeg := mset s.inDeg n.id 0,
            outDeg := mset s.outDeg n.id 0,
            adj := mset s.adj n.id [] }) s).adj k =
        if k ∈ nodeIds l then some [] else s.adj k) := by
    intro l
    induction l with
    | nil =>
      intro s k
      simp [nodeIds]
    | cons n t ih =>
      intro s k
      rcases ih ⟨mset s.inDeg n.id 0, mset s.outDeg n.id 0, mset s.adj n.id []⟩ k
        with ⟨hi, ho, ha⟩
      refine ⟨?_, ?_, ?_⟩ <;>
        simp only [List.foldl_cons, hi, ho, ha, nodeIds_cons, List.mem_cons, mset] <;>
        by_cases ht : k ∈ nodeIds t <;> by_cases hn : k = n.id <;>
        simp [ht, hn]
  intro k
  have := main nodes ⟨fun _ => none, fun _ => none, fun _ => none⟩ k
  simpa [initMaps] using this

theorem initMaps_dedup (nodes : List GNode) :
    initMaps nodes = initMaps (dedupById nodes) := by
  have hmem : ∀ k : String,
      k ∈ nodeIds (dedupById nodes) ↔ k ∈ nodeIds nodes := by
    intro k
    simp [dedupById, mem_nodeIds_dedupAux]
  apply degState_eq
  · funext k
    rw [(initMaps_spec nodes k).1, (initMaps_spec (dedupById nodes) k).1]
    simp [hmem k]
  · funext k
    rw [(initMaps_spec nodes k).2.1, (initMaps_spec (dedupById nodes) k).2.1]
    simp [hmem k]
  · funext k
    rw [(initMaps_spec nodes k).2.2, (initMaps_spec (dedupById nodes) k).2.2]
    simp [hmem k]

theorem ccFoldAux_cons (adj : String → Option (List String)) (fuel : Nat)
    (n : GNode) (l : List GNode) (acc : Nat × List String) :
    ccFoldAux adj fuel (n :: l) acc =
      if n.id ∈ acc.2 then ccFoldAux adj fuel l acc
      else ccFoldAux adj fuel l
        (acc.1 + 1, bfsLoop adj fuel [n.id] (acc.2 ++ [n.id])) := rfl

theorem ccFoldAux_dedup (adj : String → Option (List String)) (fuel : Nat) :
    ∀ (l : List GNode) (acc : Nat × List String) (seen : List String),
      (∀ k ∈ seen, k ∈ acc.2) →
      ccFoldAux adj fuel (dedupByIdAux seen l) acc = ccFoldAux adj fuel l acc := by
  intro l
  induction l with
  | nil =>
    intro acc seen _
    rfl
  | cons n t ih =>
    intro acc seen hseen
    rw [dedupByIdAux_cons]
    by_cases hs : n.id ∈ seen
    · rw [if_pos hs, ih _ _ hseen, ccFoldAux_cons, if_pos (hseen _ hs)]
    · rw [if_neg hs, ccFoldAux_cons, ccFoldAux_cons]
      by_cases hn : n.id ∈ acc.2
      · rw [if_pos hn, if_pos hn]
        apply ih
        intro k hk
        rcases List.mem_cons.mp hk with rfl | hk2
        · exact hn
        · exact hseen _ hk2
      · rw [if_neg hn, if_neg hn]
        apply ih
        intro k hk
        rcases List.mem_cons.mp hk with rfl | hk2
        · exact bfsLoop_mono adj fuel _ _ _ (List.mem_append_right _ (by simp))
        · exact bfsLoop_mono adj fuel _ _ _ (List.mem_append_left _ (hseen _ hk2))

theorem insertionSort_filter_degree (l : List RankedNode) (d : Nat) :
    (List.insertionSort rGe l).filter (fun a => a.degree == d) =
      l.filter (fun a => a.degree == d) := by
  have hpair : (l.filter (fun a => a.degree == d)).Pairwise rGe := by
    apply List.pairwise_of_forall_mem_list
    intro a ha b hb
    have hda : a.degree = d := by simpa using (List.mem_filter.mp ha).2
    have hdb : b.degree = d := by simpa using (List.mem_filter.mp hb).2
    unfold rGe
    omega
  have hsub : List.Sublist (l.filter (fun a => a.degree == d))
      (List.insertionSort rGe l) :=
    List.sublist_insertionSort hpair (List.filter_sublist l)
  have hsub2 : List.Sublist (l.filter (fun a => a.degree == d))
      ((List.insertionSort rGe l).filter (fun a => a.degree == d)) := by
    have := hsub.filter (fun a => a.degree == d)
    simpa [List.filter_filter] using this
  have hperm : List.Perm ((List.insertionSort rGe l).filter (fun a => a.degree == d))
      (l.filter (fun a => a.degree == d)) :=
    (List.perm_insertionSort rGe l).filter _
  exact (hsub2.eq_of_length hperm.length_eq.symm).symm

/-! ### C6: metrics are `null` exactly on an empty node list -/

/-- C6: `computeMetrics` returns `none` exactly when the node list is empty
(an absent `nodes` prop is the empty list); every non-empty node list yields
a metrics record, never an exception — totality is the type. -/
theorem computeMetrics_none_iff (nodes : List GNode) (edges : List GEdge) :
    computeMetrics nodes edges = none ↔ nodes = [] := by
  by_cases h : nodes = [] <;> simp [computeMetrics, h]

/-- C6 witness: the empty graph yields `none`; a one-node graph does not. -/
theorem computeMetrics_none_iff_witness :
    computeMetrics [] [] = none ∧ ¬ computeMetrics [nA] [] = none :=
  ⟨(computeMetrics_none_iff [] []).mpr rfl,
   fun h => by simpa using (computeMetrics_none_iff [nA] []).mp h⟩

/-! ### C5: the density formula -/

/-- C5: for every non-empty node list the density field is exactly
`edgeCount / (nodeCount * (nodeCount - 1))` when `nodeCount > 1` and `0`
when `nodeCount ≤ 1`; nothing deduplicates parallel edges, so the ratio can
exceed 1 (see the witness). -/
theorem density_formula (nodes : List GNode) (edges : List GEdge)
    (h : nodes ≠ []) :
    ∃ m, computeMetrics nodes edges = some m ∧
      (nodes.length ≤ 1 → m.density = 0) ∧
      (1 < nodes.length →
        m.density =
          (edges.length : ℚ) /
            ((nodes.length : ℚ) * ((nodes.length : ℚ) - 1))) := by
  simp only [computeMetrics, if_neg h]
  refine ⟨_, rfl, ?_, ?_⟩
  · intro hle
    simp [Nat.not_lt.mpr hle]
  · intro hlt
    simp [hlt]

/-- C5 witness: three nodes and two edges give density `2/6 = 1/3`, and two
nodes with three parallel edges give density `3/2 > 1`. -/
theorem density_formula_witness :
    ([nA, nB, nC] ≠ [] ∧
      ∃ m, computeMetrics [nA, nB, nC] [eAB, eBC] = some m ∧
        ([nA, nB, nC].length ≤ 1 → m.density = 0) ∧
        (1 < [nA, nB, nC].length →
          m.density =
            ([eAB, eBC].length : ℚ) /
              (([nA, nB, nC].length : ℚ) * (([nA, nB, nC].length : ℚ) - 1)))) ∧
    (computeMetrics [nA, nB, nC] [eAB, eBC]).map Metrics.density = some (1 / 3) ∧
    (computeMetrics [nA, nB] [eAB, eAB, eAB]).map Metrics.density = some (3 / 2) ∧
    (1 : ℚ) < 3 / 2 := by
  refine ⟨⟨by decide, density_formula [nA, nB, nC] [eAB, eBC] (by decide)⟩, ?_, ?_, by norm_num⟩
  · simp [computeMetrics, nA, nB, nC]
    norm_num
  · simp [computeMetrics, nA, nB]
    norm_num

/-! ### C1: dangling edges are not dropped -/

/-- C1 counterexample: with nodes `A`, `B` and the single edge `X → B`
(node `X` absent), the reported edge count is `1`, not `0` — the dangling
edge is counted, contradicting the claim that it is dropped before metrics
run. -/
theorem dangling_edge_counted :
    (computeMetrics [nA, nB] [eXB]).map Metrics.edgeCount = some 1 ∧
    ¬ (computeMetrics [nA, nB] [eXB]).map Metrics.edgeCount = some 0 := by
  constructor <;> decide

/-- C1 amended: the pipeline never crashes on a dangling edge (totality),
but such edges are not dropped: for every non-empty node list the reported
`edgeCount` is the full length of the edge list, dangling references
included.  (Only the adjacency push on the missing endpoint is skipped.) -/
theorem edgeCount_counts_all_edges (nodes : List GNode) (edges : List GEdge)
    (h : nodes ≠ []) :
    ∃ m, computeMetrics nodes edges = some m ∧ m.edgeCount = edges.length := by
  simp only [computeMetrics, if_neg h]
  exact ⟨_, rfl, rfl⟩

/-- C1 amended witness: the dangling edge `X → B` is still counted. -/
theorem edgeCount_counts_all_edges_witness :
    ([nA, nB] ≠ []) ∧
    ∃ m, computeMetrics [nA, nB] [eXB] = some m ∧ m.edgeCount = [eXB].length :=
  ⟨by decide, edgeCount_counts_all_edges [nA, nB] [eXB] (by decide)⟩

/-! ### C2: hit-testing -/

/-- C2 counterexample: two nodes at the same reported position, pointer on
that position: the scan returns node `B` — the node occurring last in the
list — although `A` is also within the pick radius, so the claim that the
first matching node's id is returned fails (and a pointer exactly at `A`'s
reported position does not return `A`'s id). -/
theorem hitTest_first_claim_false :
    hitTest [nA, nB] (fun _ => some ((0 : ℚ), (0 : ℚ))) 0 0 = some nB ∧
    withinPick (fun _ => some ((0 : ℚ), (0 : ℚ))) 0 0 nA = true ∧
    nB ≠ nA := by
  refine ⟨?_, ?_, by decide⟩
  · simp [hitTest, withinPick, nA, nB]
  · simp [withinPick, nA]

/-- C2 amended: the scan iterates all nodes and returns the node whose
squared distance to the pointer is within `100` (pick radius 10 squared)
that occurs *last* in the node list; a pointer exactly at some node's
reported position always produces a match (never `null`), and a pointer
beyond the pick radius of every node produces `null`. -/
theorem hitTest_last_match (nodes : List GNode)
    (positions : String → Option (ℚ × ℚ)) (mx my : ℚ) :
    hitTest nodes positions mx my =
      nodes.reverse.find? (withinPick positions mx my) ∧
    (∀ n ∈ nodes, positions n.id = some (mx, my) →
      (hitTest nodes positions mx my).isSome) ∧
    ((∀ n ∈ nodes, withinPick positions mx my n = false) →
      hitTest nodes positions mx my = none) := by
  have hfold := foldl_if_or (withinPick positions mx my) nodes none
  refine ⟨by simpa [hitTest, Option.or_none] using hfold, ?_, ?_⟩
  · intro n hn hpos
    have hw : withinPick positions mx my n = true := by
      simp [withinPick, hpos]
    have : (nodes.reverse.find? (withinPick positions mx my)).isSome := by
      rw [List.find?_isSome]
      exact ⟨n, List.mem_reverse.mpr hn, hw⟩
    simpa [hitTest, Option.or_none, hfold] using this
  · intro hall
    have : nodes.reverse.find? (withinPick positions mx my) = none := by
      rw [List.find?_eq_none]
      intro x hx
      simp [hall x (List.mem_reverse.mp hx)]
    simp [hitTest, Option.or_none, hfold, this]

/-- C2 amended witness: with `A` then `B` on the pointer, the last match
`B` is returned; the exact-position pointer yields a match; and moving the
pointer far away yields `null`. -/
theorem hitTest_last_match_witness :
    (hitTest [nA, nB] (fun _ => some ((0 : ℚ), (0 : ℚ))) 0 0 =
      [nA, nB].reverse.find? (withinPick (fun _ => some ((0 : ℚ), (0 : ℚ))) 0 0)) ∧
    (hitTest [nA, nB] (fun _ => some ((0 : ℚ), (0 : ℚ))) 0 0).isSome ∧
    hitTest [nA, nB] (fun _ => some ((0 : ℚ), (0 : ℚ))) 500 0 = none := by
  refine ⟨(hitTest_last_match _ _ _ _).1,
    (hitTest_last_match [nA, nB] _ 0 0).2.1 nA (by simp) rfl,
    (hitTest_last_match [nA, nB] _ 500 0).2.2 ?_⟩
  intro n hn
  have : (500 - 0 : ℚ) * (500 - 0) + (0 - 0) * (0 - 0) ≤ 100 ↔ False := by
    norm_num
  simp only [List.mem_cons, List.not_mem_nil, or_false] at hn
  rcases hn with h | h <;> subst h <;> simp [withinPick, nA, nB] <;> norm_num

/-! ### C7: clamping keeps positions in bounds -/

/-- C7: after the integration-and-clamp step of any tick, for any force the
loops produced and any previous state, both coordinates lie within
`[padding, dimension - padding]` (padding 60), provided the canvas is at
least `2 * padding` wide and tall; in particular positions stay finite
(`ℚ` values in a bounded interval). -/
theorem integrateStep_bounds (w h : ℚ) (s : NodeState) (fx fy : ℚ)
    (hw : 2 * padding ≤ w) (hh : 2 * padding ≤ h) :
    padding ≤ (integrateStep w h s fx fy).x ∧
    (integrateStep w h s fx fy).x ≤ w - padding ∧
    padding ≤ (integrateStep w h s fx fy).y ∧
    (integrateStep w h s fx fy).y ≤ h - padding := by
  dsimp [integrateStep]
  exact ⟨le_max_left _ _,
    max_le (by linarith) (min_le_left _ _),
    le_max_left _ _,
    max_le (by linarith) (min_le_left _ _)⟩

/-- C7 witness: an 800×600 canvas, a node far outside with a huge force:
the clamped position is inside the padded box. -/
theorem integrateStep_bounds_witness :
    (2 * padding ≤ (800 : ℚ)) ∧ (2 * padding ≤ (600 : ℚ)) ∧
    (padding ≤ (integrateStep 800 600 ⟨-10000, 10000, 0, 0⟩ 99999 (-99999)).x ∧
     (integrateStep 800 600 ⟨-10000, 10000, 0, 0⟩ 99999 (-99999)).x ≤ 800 - padding ∧
     padding ≤ (integrateStep 800 600 ⟨-10000, 10000, 0, 0⟩ 99999 (-99999)).y ∧
     (integrateStep 800 600 ⟨-10000, 10000, 0, 0⟩ 99999 (-99999)).y ≤ 600 - padding) :=
  ⟨by norm_num [padding], by norm_num [padding],
   integrateStep_bounds 800 600 ⟨-10000, 10000, 0, 0⟩ 99999 (-99999)
     (by norm_num [padding]) (by norm_num [padding])⟩

/-! ### C8: the two-state tick machine -/

/-- C8: one frame of the simulation loop is a two-state machine: below the
cap of `MAX_TICKS = 300` the physics transformer is applied and the tick
counter advances by one; at or past the cap the state is left untouched
(render-only), so positions never change from physics again; the tick
counter never decreases, making Running → Settled one-way and automatic. -/
theorem simTick_state_machine
    (physics : (String → Option NodeState) → (String → Option NodeState))
    (s : SimState) :
    (s.ticks < MAX_TICKS →
      simTick physics s = { ticks := s.ticks + 1, posvel := physics s.posvel }) ∧
    (MAX_TICKS ≤ s.ticks → simTick physics s = s) ∧
    s.ticks ≤ (simTick physics s).ticks ∧
    (MAX_TICKS ≤ s.ticks → MAX_TICKS ≤ (simTick physics s).ticks) := by
  by_cases hlt : s.ticks < MAX_TICKS
  · refine ⟨fun _ => by simp [simTick, hlt], fun hle => absurd hlt (by omega), ?_, ?_⟩
    · simp [simTick, hlt]
    · intro hle
      exact absurd hlt (by omega)
  · have hle : MAX_TICKS ≤ s.ticks := by omega
    refine ⟨fun hcon => absurd hcon hlt, fun _ => by simp [simTick, hlt], ?_, fun _ => ?_⟩
    · simp [simTick, hlt]
    · simp [simTick, hlt]
      exact hle

/-- C8 witness: at exactly the cap, a frame with an arbitrary physics
transformer leaves the state untouched and keeps it at the cap. -/
theorem simTick_state_machine_witness :
    (MAX_TICKS ≤ (SimState.mk 300 (fun _ => none)).ticks) ∧
    simTick (fun p => p) (SimState.mk 300 (fun _ => none)) =
      SimState.mk 300 (fun _ => none) ∧
    MAX_TICKS ≤ (simTick (fun p => p) (SimState.mk 300 (fun _ => none))).ticks :=
  ⟨by decide,
   (simTick_state_machine (fun p => p) (SimState.mk 300 (fun _ => none))).2.1 (by decide),
   (simTick_state_machine (fun p => p) (SimState.mk 300 (fun _ => none))).2.2.2 (by decide)⟩

/-! ### C9: duplicate node ids -/

/-- C9 counterexample: with the duplicated node list `[A, A]` the reported
`nodeCount` is `2`, not the number `1` of distinct ids, and the ranking
carries two entries for the same id — so nodeCount and the ranking do not
operate over the set of unique ids. -/
theorem duplicate_ids_kept :
    (computeMetrics [nA, nA] []).map Metrics.nodeCount = some 2 ∧
    (dedupById [nA, nA]).length = 1 ∧
    (computeMetrics [nA, nA] []).map (fun m => m.mostConnected.length) = some 2 := by
  refine ⟨by decide, by decide, by decide⟩

/-- C9 amended: only the keyed structures deduplicate.  The degree and
adjacency maps are extensionally those of the id-deduplicated node list,
and the component count visits each distinct id once (running the component
fold over the deduplicated list gives the same count); but `nodeCount` is
the raw list length, duplicates included, and the ranking maps over the raw
list, so duplicate ids appear as duplicate entries. -/
theorem metrics_duplicate_semantics (nodes : List GNode) (edges : List GEdge)
    (h : nodes ≠ []) :
    ∃ m, computeMetrics nodes edges = some m ∧
      m.nodeCount = nodes.length ∧
      initMaps nodes = initMaps (dedupById nodes) ∧
      m.connectedComponents =
        (ccFoldAux (buildState nodes edges).adj
          (1 + nodes.length + 2 * edges.length) (dedupById nodes) (0, [])).1 := by
  simp only [computeMetrics, if_neg h]
  refine ⟨_, rfl, rfl, initMaps_dedup nodes, ?_⟩
  have hdd := ccFoldAux_dedup (buildState nodes edges).adj
    (1 + nodes.length + 2 * edges.length) nodes (0, []) [] (by simp)
  show (ccFoldAux _ _ nodes (0, [])).1 =
    (ccFoldAux _ _ (dedupByIdAux [] nodes) (0, [])).1
  rw [hdd]

/-- C9 amended witness: the duplicated list `[A, A]`. -/
theorem metrics_duplicate_semantics_witness :
    ([nA, nA] ≠ []) ∧
    ∃ m, computeMetrics [nA, nA] [] = some m ∧
      m.nodeCount = [nA, nA].length ∧
      initMaps [nA, nA] = initMaps (dedupById [nA, nA]) ∧
      m.connectedComponents =
        (ccFoldAux (buildState [nA, nA] []).adj
          (1 + [nA, nA].length + 2 * ([] : List GEdge).length)
          (dedupById [nA, nA]) (0, [])).1 :=
  ⟨by decide, metrics_duplicate_semantics [nA, nA] [] (by decide)⟩

/-! ### C3: the most-connected ranking -/

/-- C3: for every non-empty node list the displayed ranking is the first
five entries of the full ranking; the full ranking is sorted non-increasing
by `degree`, it is stable (for each degree value, the entries with that
degree appear exactly in input order, i.e. filtering the sorted ranking by
any degree gives the same list as filtering the annotated input), and each
entry's degree is its in-degree plus its out-degree, with the individual
in/out degrees and the node (hence its language) attached. -/
theorem mostConnected_ranking (nodes : List GNode) (edges : List GEdge)
    (h : nodes ≠ []) :
    ∃ m, computeMetrics nodes edges = some m ∧
      m.mostConnected = (rankAll nodes edges).take 5 ∧
      (rankAll nodes edges).Sorted rGe ∧
      (∀ d : Nat, (rankAll nodes edges).filter (fun a => a.degree == d) =
        (annotate (buildState nodes edges) nodes).filter (fun a => a.degree == d)) ∧
      (∀ r ∈ annotate (buildState nodes edges) nodes,
        r.degree = r.inD + r.outD ∧
        r.inD = ((buildState nodes edges).inDeg r.node.id).getD 0 ∧
        r.outD = ((buildState nodes edges).outDeg r.node.id).getD 0) := by
  simp only [computeMetrics, if_neg h]
  refine ⟨_, rfl, rfl, List.sorted_insertionSort rGe _,
    fun d => insertionSort_filter_degree _ d, ?_⟩
  intro r hr
  simp only [annotate, List.mem_map] at hr
  rcases hr with ⟨n, hn, rfl⟩
  exact ⟨rfl, rfl, rfl⟩

/-- C3 witness: nodes `A, B, C` with edges `A→B, B→C` rank as
`[B(2, in 1, out 1), A(1, in 0, out 1), C(1, in 1, out 0)]` — `B` first,
and the tie between `A` and `C` resolved by input order. -/
theorem mostConnected_ranking_witness :
    (([nA, nB, nC] ≠ []) ∧
      ∃ m, computeMetrics [nA, nB, nC] [eAB, eBC] = some m ∧
        m.mostConnected = (rankAll [nA, nB, nC] [eAB, eBC]).take 5 ∧
        (rankAll [nA, nB, nC] [eAB, eBC]).Sorted rGe ∧
        (∀ d : Nat,
          (rankAll [nA, nB, nC] [eAB, eBC]).filter (fun a => a.degree == d) =
            (annotate (buildState [nA, nB, nC] [eAB, eBC]) [nA, nB, nC]).filter
              (fun a => a.degree == d)) ∧
        (∀ r ∈ annotate (buildState [nA, nB, nC] [eAB, eBC]) [nA, nB, nC],
          r.degree = r.inD + r.outD ∧
          r.inD = ((buildState [nA, nB, nC] [eAB, eBC]).inDeg r.node.id).getD 0 ∧
          r.outD = ((buildState [nA, nB, nC] [eAB, eBC]).outDeg r.node.id).getD 0)) ∧
    (computeMetrics [nA, nB, nC] [eAB, eBC]).map
        (fun m => m.mostConnected.map (fun r => (r.node.id, r.degree, r.inD, r.outD))) =
      some [("B", 2, 1, 1), ("A", 1, 0, 1), ("C", 1, 1, 0)] :=
  ⟨⟨by decide, mostConnected_ranking [nA, nB, nC] [eAB, eBC] (by decide)⟩, by decide⟩

/-! ### C4 groundwork: adjacency construction -/

theorem pushAdj_isSome (a : String → Option (List String)) (k v x : String) :
    ((pushAdj a k v) x).isSome = (a x).isSome := by
  unfold pushAdj
  cases h : a k with
  | none => rfl
  | some l =>
    by_cases hx : x = k
    · subst hx
      simp [mset, h]
    · simp [mset, hx]

theorem pushAdj_mono {a : String → Option (List String)} {k v x y : String}
    (hy : y ∈ (a x).getD []) : y ∈ ((pushAdj a k v) x).getD [] := by
  unfold pushAdj
  cases h : a k with
  | none => exact hy
  | some l =>
    by_cases hx : x = k
    · subst hx
      rw [h] at hy
      simp only [mset, if_pos rfl, Option.getD_some]
      exact List.mem_append_left _ hy
    · simpa [mset, hx] using hy

theorem pushAdj_self {a : String → Option (List String)} {k v : String}
    (hs : (a k).isSome) : v ∈ ((pushAdj a k v) k).getD [] := by
  unfold pushAdj
  cases h : a k with
  | none => rw [h] at hs; cases hs
  | some l => simp [mset]

theorem pushAdj_sub {a : String → Option (List String)} {k v x y : String}
    (hy : y ∈ ((pushAdj a k v) x).getD []) :
    y ∈ (a x).getD [] ∨ y = v := by
  unfold pushAdj at hy
  cases h : a k with
  | none => rw [h] at hy; exact Or.inl hy
  | some l =>
    rw [h] at hy
    by_cases hx : x = k
    · subst hx
      simp only [mset, if_pos rfl, Option.getD_some] at hy
      rw [h]
      rcases List.mem_append.mp hy with hl | hr
      · exact Or.inl hl
      · exact Or.inr (by simpa using hr)
    · simp only [mset, if_neg hx] at hy
      exact Or.inl hy

theorem applyEdge_adj_isSome (s : DegState) (e : GEdge) (x : String) :
    (((applyEdge s e).adj) x).isSome = ((s.adj) x).isSome := by
  show ((pushAdj (pushAdj s.adj e.source e.target) e.target e.source) x).isSome = _
  rw [pushAdj_isSome, pushAdj_isSome]

theorem applyEdge_adj_mono {s : DegState} {e : GEdge} {x y : String}
    (hy : y ∈ ((s.adj) x).getD []) : y ∈ (((applyEdge s e).adj) x).getD [] :=
  pushAdj_mono (pushAdj_mono hy)

theorem applyEdge_adj_sub {s : DegState} {e : GEdge} {x y : String}
    (hy : y ∈ (((applyEdge s e).adj) x).getD []) :
    y ∈ ((s.adj) x).getD [] ∨ y = e.target ∨ y = e.source := by
  rcases pushAdj_sub hy with h1 | h1
  · rcases pushAdj_sub h1 with h2 | h2
    · exact Or.inl h2
    · exact Or.inr (Or.inl h2)
  · exact Or.inr (Or.inr h1)

theorem applyEdge_self {s : DegState} {e : GEdge}
    (hsrc : ((s.adj) e.source).isSome) (htgt : ((s.adj) e.target).isSome) :
    e.target ∈ (((applyEdge s e).adj) e.source).getD [] ∧
    e.source ∈ (((applyEdge s e).adj) e.target).getD [] := by
  constructor
  · exact pushAdj_mono (pushAdj_self hsrc)
  · apply pushAdj_self
    rw [pushAdj_isSome]
    exact htgt

theorem foldl_adj_isSome : ∀ (es : List GEdge) (s : DegState) (x : String),
    (((es.foldl applyEdge s).adj) x).isSome = ((s.adj) x).isSome := by
  intro es
  induction es with
  | nil => intro s x; rfl
  | cons e t ih =>
    intro s x
    rw [List.foldl_cons, ih, applyEdge_adj_isSome]

theorem foldl_adj_mono : ∀ (es : List GEdge) (s : DegState) (x y : String),
    y ∈ ((s.adj) x).getD [] → y ∈ (((es.foldl applyEdge s).adj) x).getD [] := by
  intro es
  induction es with
  | nil => intro s x y hy; exact hy
  | cons e t ih =>
    intro s x y hy
    rw [List.foldl_cons]
    exact ih _ _ _ (applyEdge_adj_mono hy)

theorem mem_adj_of_edge : ∀ (es : List GEdge) (s : DegState) (e : GEdge),
    e ∈ es → ((s.adj) e.source).isSome → ((s.adj) e.target).isSome →
    e.target ∈ (((es.foldl applyEdge s).adj) e.source).getD [] ∧
    e.source ∈ (((es.foldl applyEdge s).adj) e.target).getD [] := by
  intro es
  induction es with
  | nil => intro s e he; cases he
  | cons e1 t ih =>
    intro s e he hsrc htgt
    rw [List.foldl_cons]
    rcases List.mem_cons.mp he with rfl | he2
    · rcases applyEdge_self hsrc htgt with ⟨h1, h2⟩
      exact ⟨foldl_adj_mono t _ _ _ h1, foldl_adj_mono t _ _ _ h2⟩
    · exact ih (applyEdge s e1) e he2
        (by rw [applyEdge_adj_isSome]; exact hsrc)
        (by rw [applyEdge_adj_isSome]; exact htgt)

theorem mem_endPts {e : GEdge} : ∀ {es : List GEdge}, e ∈ es →
    e.source ∈ endPts es ∧ e.target ∈ endPts es := by
  intro es
  induction es with
  | nil => intro he; cases he
  | cons e1 t ih =>
    intro he
    rcases List.mem_cons.mp he with rfl | he2
    · exact ⟨by simp [endPts], by simp [endPts]⟩
    · exact ⟨List.mem_cons_of_mem _ (List.mem_cons_of_mem _ (ih he2).1),
        List.mem_cons_of_mem _ (List.mem_cons_of_mem _ (ih he2).2)⟩

theorem endPts_length : ∀ es : List GEdge, (endPts es).length = 2 * es.length := by
  intro es
  induction es with
  | nil => rfl
  | cons e t ih =>
    show (endPts t).length + 1 + 1 = 2 * (t.length + 1)
    omega

theorem foldl_adj_range (E : List String) : ∀ (es : List GEdge) (s : DegState),
    (∀ e ∈ es, e.source ∈ E ∧ e.target ∈ E) →
    (∀ x y : String, y ∈ ((s.adj) x).getD [] → y ∈ E) →
    ∀ x y : String, y ∈ (((es.foldl applyEdge s).adj) x).getD [] → y ∈ E := by
  intro es
  induction es with
  | nil => intro s _ hs; exact hs
  | cons e t ih =>
    intro s hes hs
    rw [List.foldl_cons]
    apply ih
    · intro e1 he1
      exact hes e1 (List.mem_cons_of_mem _ he1)
    · intro x y hy
      rcases applyEdge_adj_sub hy with h1 | h1 | h1
      · exact hs x y h1
      · exact h1 ▸ (hes e (List.mem_cons_self _ _)).2
      · exact h1 ▸ (hes e (List.mem_cons_self _ _)).1

theorem buildState_adj_range (nodes : List GNode) (edges : List GEdge) :
    ∀ x y : String, y ∈ (((buildState nodes edges).adj) x).getD [] →
      y ∈ endPts edges := by
  apply foldl_adj_range
  · intro e he
    exact mem_endPts he
  · intro x y hy
    rcases (initMaps_spec nodes x).2.2 with hspec
    rw [hspec] at hy
    by_cases hx : x ∈ nodeIds nodes <;> simp [hx] at hy

theorem buildState_adj_isSome (nodes : List GNode) (edges : List GEdge)
    (k : String) (hk : k ∈ nodeIds nodes) :
    (((buildState nodes edges).adj) k).isSome := by
  unfold buildState
  rw [foldl_adj_isSome, (initMaps_spec nodes k).2.2, if_pos hk]
  rfl

theorem undirStep_adjStep (nodes : List GNode) (edges : List GEdge)
    (hwf : ∀ e ∈ edges, e.source ∈ nodeIds nodes ∧ e.target ∈ nodeIds nodes) :
    ∀ a b : String, undirStep edges a b →
      adjStep ((buildState nodes edges).adj) a b := by
  rintro a b ⟨e, he, hdir⟩
  have hsrc := buildState_adj_isSome nodes edges e.source (hwf e he).1
  have htgt := buildState_adj_isSome nodes edges e.target (hwf e he).2
  have hinit1 : (((initMaps nodes).adj) e.source).isSome := by
    rw [(initMaps_spec nodes e.source).2.2, if_pos (hwf e he).1]; rfl
  have hinit2 : (((initMaps nodes).adj) e.target).isSome := by
    rw [(initMaps_spec nodes e.target).2.2, if_pos (hwf e he).2]; rfl
  have hmem := mem_adj_of_edge edges (initMaps nodes) e he hinit1 hinit2
  rcases hdir with ⟨ha, hb⟩ | ⟨ha, hb⟩
  · subst ha; subst hb
    exact hmem.1
  · subst ha; subst hb
    exact hmem.2

theorem filter_measure (U v added : List String) (hnd : added.Nodup)
    (hdisj : ∀ x ∈ added, x ∉ v) (hsubU : ∀ x ∈ added, x ∈ U) :
    (U.filter (fun u => decide (u ∉ v ++ added))).length + added.length ≤
      (U.filter (fun u => decide (u ∉ v))).length := by
  have hsplit := List.length_eq_length_filter_add
    (l := U.filter (fun u => decide (u ∉ v))) (fun u => decide (u ∈ added))
  have h1 : added.length ≤
      ((U.filter (fun u => decide (u ∉ v))).filter
        (fun u => decide (u ∈ added))).length := by
    apply List.Subperm.length_le
    apply List.Nodup.subperm hnd
    intro x hx
    exact List.mem_filter.mpr
      ⟨List.mem_filter.mpr ⟨hsubU x hx, by simpa using hdisj x hx⟩, by simpa using hx⟩
  have h2 : (U.filter (fun u => decide (u ∉ v))).filter
      (fun u => !decide (u ∈ added)) =
      U.filter (fun u => decide (u ∉ v ++ added)) := by
    rw [List.filter_filter]
    apply List.filter_congr
    intro u _
    by_cases ha : u ∈ added <;> by_cases hv : u ∈ v <;>
      simp [ha, hv, List.mem_append]
  have h2len : ((U.filter (fun u => decide (u ∉ v))).filter
      (fun u => !decide (u ∈ added))).length =
      (U.filter (fun u => decide (u ∉ v ++ added))).length := by rw [h2]
  omega

theorem bfs_closed (adj : String → Option (List String)) (U : List String)
    (hadj : ∀ k : String, ∀ y ∈ (adj k).getD [], y ∈ U) :
    ∀ (fuel : Nat) (q v : List String),
      (∀ x ∈ q, x ∈ v) → v.Nodup →
      (∀ x ∈ v, x ∈ q ∨ ∀ y ∈ (adj x).getD [], y ∈ v) →
      q.length + (U.filter (fun u => decide (u ∉ v))).length < fuel →
      ∀ x ∈ bfsLoop adj fuel q v, ∀ y ∈ (adj x).getD [],
        y ∈ bfsLoop adj fuel q v := by
  intro fuel
  induction fuel with
  | zero =>
    intro q v _ _ _ hm
    exact absurd hm (Nat.not_lt_zero _)
  | succ f ih =>
    intro q v hqv hnd hinv hm
    cases q with
    | nil =>
      have hval : bfsLoop adj (f + 1) [] v = v := rfl
      rw [hval]
      intro x hx y hy
      rcases hinv x hx with hq | hcl
      · cases hq
      · exact hcl y hy
    | cons curr rest =>
      rw [bfsLoop_succ]
      rcases visitNbrs_spec ((adj curr).getD []) (v, rest) with
        ⟨added, hp1, hp2, hand, hamem⟩
      apply ih
      · intro x hx
        rw [hp2] at hx
        rw [hp1]
        rcases List.mem_append.mp hx with h1 | h1
        · exact List.mem_append_left _ (hqv x (List.mem_cons_of_mem _ h1))
        · exact List.mem_append_right _ h1
      · rw [hp1]
        exact hnd.append hand (fun a hav haa => (hamem a haa).2 hav)
      · intro x hx
        rw [hp1] at hx
        rcases List.mem_append.mp hx with hxv | hxa
        · rcases hinv x hxv with hxq | hxcl
          · rcases List.mem_cons.mp hxq with rfl | hxr
            · right
              intro y hy
              exact visitNbrs_nbrs_sub _ _ hy
            · left
              rw [hp2]
              exact List.mem_append_left _ hxr
          · right
            intro y hy
            rw [hp1]
            exact List.mem_append_left _ (hxcl y hy)
        · left
          rw [hp2]
          exact List.mem_append_right _ hxa
      · have hlen2 : (visitNbrs (v, rest) ((adj curr).getD [])).2.length =
            rest.length + added.length := by rw [hp2, List.length_append]
        have hmeas := filter_measure U v added hand
          (fun x hx => (hamem x hx).2)
          (fun x hx => hadj curr x (hamem x hx).1)
        have hq : (curr :: rest).length = rest.length + 1 := by simp
        simp only [hp1, hlen2]
        omega

theorem reach_sub_closed (adj : String → Option (List String)) (R : List String)
    (hcl : ∀ x ∈ R, ∀ y ∈ (adj x).getD [], y ∈ R) :
    ∀ a b : String, AdjReach adj a b → a ∈ R → b ∈ R := by
  intro a b hab
  unfold AdjReach at hab
  induction hab with
  | refl => exact fun ha => ha
  | tail h1 h2 ih =>
    intro ha
    exact hcl _ (ih ha) _ h2

theorem ccFoldAux_skip (adj : String → Option (List String)) (fuel : Nat) :
    ∀ (l : List GNode) (acc : Nat × List String),
      (∀ n ∈ l, n.id ∈ acc.2) → ccFoldAux adj fuel l acc = acc := by
  intro l
  induction l with
  | nil => intro acc _; rfl
  | cons n t ih =>
    intro acc hall
    rw [ccFoldAux_cons, if_pos (hall n (List.mem_cons_self _ _))]
    exact ih acc (fun m hm => hall m (List.mem_cons_of_mem _ hm))

theorem ccFoldAux_no_edges (adj : String → Option (List String)) (fuel : Nat)
    (hf : fuel ≠ 0) :
    ∀ (l : List GNode) (c : Nat) (v : List String),
      (nodeIds l).Nodup → (∀ n ∈ l, n.id ∉ v) →
      (∀ n ∈ l, adj n.id = some []) →
      (ccFoldAux adj fuel l (c, v)).1 = c + l.length := by
  intro l
  induction l with
  | nil =>
    intro c v _ _ _
    rfl
  | cons n t ih =>
    intro c v hnd hnv hadj
    rw [ccFoldAux_cons]
    rw [if_neg (hnv n (List.mem_cons_self _ _))]
    obtain ⟨f, rfl⟩ : ∃ f, fuel = f + 1 := ⟨fuel - 1, by omega⟩
    have hbfs : bfsLoop adj (f + 1) [n.id] ((c, v).2 ++ [n.id]) = v ++ [n.id] := by
      rw [bfsLoop_succ, hadj n (List.mem_cons_self _ _)]
      cases f <;> rfl
    rw [hbfs]
    have hres := ih (c + 1) (v ++ [n.id])
      (by rw [nodeIds_cons] at hnd; exact hnd.of_cons)
      (fun m hm => by
        intro hmem
        rcases List.mem_append.mp hmem with h1 | h1
        · exact hnv m (List.mem_cons_of_mem _ hm) h1
        · have hne : m.id ≠ n.id := by
            rw [nodeIds_cons] at hnd
            have := (List.nodup_cons.mp hnd).1
            intro hc
            exact this (hc ▸ List.mem_map_of_mem (fun x => x.id) hm)
          exact hne (by simpa using h1))
      (fun m hm => hadj m (List.mem_cons_of_mem _ hm))
    rw [hres, List.length_cons]
    omega

/-! ### C4: the connected-component count -/

/-- C4: for well-formed input (non-empty node list, distinct ids, every edge
endpoint a known id), the component counter — undirected adjacency, BFS from
each unvisited node, one increment per unvisited seed — equals `nodeCount`
when there are no edges, and equals `1` when every node reaches every other
ignoring edge direction. -/
theorem connectedComponents_cases (nodes : List GNode) (edges : List GEdge)
    (h : nodes ≠ []) (hnd : (nodeIds nodes).Nodup)
    (hwf : ∀ e ∈ edges, e.source ∈ nodeIds nodes ∧ e.target ∈ nodeIds nodes) :
    ∃ m, computeMetrics nodes edges = some m ∧
      (edges = [] → m.connectedComponents = nodes.length) ∧
      ((∀ a ∈ nodeIds nodes, ∀ b ∈ nodeIds nodes, UndirReach edges a b) →
        m.connectedComponents = 1) := by
  simp only [computeMetrics, if_neg h]
  refine ⟨_, rfl, ?_, ?_⟩
  · rintro rfl
    have hres := ccFoldAux_no_edges (buildState nodes []).adj
      (1 + nodes.length + 2 * ([] : List GEdge).length) (by simp) nodes 0 []
      hnd (by simp)
      (fun n hn => by
        show ((initMaps nodes).adj) n.id = some []
        have hmem : n.id ∈ nodeIds nodes := List.mem_map_of_mem (fun x => x.id) hn
        rw [(initMaps_spec nodes n.id).2.2, if_pos hmem])
    rw [hres]
    show 0 + nodes.length = nodes.length
    omega
  · intro hreach
    cases nodes with
    | nil => exact absurd rfl h
    | cons n0 rest =>
      have hwf2 := hwf
      set adjb := (buildState (n0 :: rest) edges).adj with hadjb
      set fuel := 1 + (n0 :: rest).length + 2 * edges.length with hfuel
      show (ccFoldAux adjb fuel (n0 :: rest) (0, [])).1 = 1
      rw [ccFoldAux_cons, if_neg (List.not_mem_nil n0.id)]
      have hadjU : ∀ k : String, ∀ y ∈ (adjb k).getD [],
          y ∈ nodeIds (n0 :: rest) ++ endPts edges := by
        intro k y hy
        exact List.mem_append_right _ (buildState_adj_range (n0 :: rest) edges k y hy)
      have hUlen : (nodeIds (n0 :: rest) ++ endPts edges).length =
          (n0 :: rest).length + 2 * edges.length := by
        rw [List.length_append, endPts_length]
        simp [nodeIds]
      have hmeas : ([n0.id] : List String).length +
          ((nodeIds (n0 :: rest) ++ endPts edges).filter
            (fun u => decide (u ∉ ([] : List String) ++ [n0.id]))).length < fuel := by
        have hsplit := List.length_eq_length_filter_add
          (l := nodeIds (n0 :: rest) ++ endPts edges)
          (fun u => decide (u ∉ ([] : List String) ++ [n0.id]))
        have hpos : 0 < ((nodeIds (n0 :: rest) ++ endPts edges).filter
            (fun u => !decide (u ∉ ([] : List String) ++ [n0.id]))).length := by
          have hmemb : n0.id ∈ (nodeIds (n0 :: rest) ++ endPts edges).filter
              (fun u => !decide (u ∉ ([] : List String) ++ [n0.id])) := by
            apply List.mem_filter.mpr
            refine ⟨List.mem_append_left _ ?_, by simp⟩
            rw [nodeIds_cons]
            exact List.mem_cons_self _ _
          exact List.length_pos_of_mem hmemb
        have hone : ([n0.id] : List String).length = 1 := rfl
        omega
      have hclosed := bfs_closed adjb (nodeIds (n0 :: rest) ++ endPts edges)
        hadjU fuel [n0.id] ([] ++ [n0.id])
        (by simp) (by simp)
        (fun x hx => Or.inl (by simpa using hx))
        hmeas
      have hn0R : n0.id ∈ bfsLoop adjb fuel [n0.id] ([] ++ [n0.id]) :=
        bfsLoop_mono adjb fuel _ _ _ (by simp)
      have hallR : ∀ n ∈ rest,
          n.id ∈ bfsLoop adjb fuel [n0.id] ([] ++ [n0.id]) := by
        intro n hn
        have hu : UndirReach edges n0.id n.id :=
          hreach n0.id (by rw [nodeIds_cons]; exact List.mem_cons_self _ _)
            n.id (by
              rw [nodeIds_cons]
              exact List.mem_cons_of_mem _ (List.mem_map_of_mem (fun x => x.id) hn))
        have hadjreach : AdjReach adjb n0.id n.id :=
          Relation.ReflTransGen.mono (undirStep_adjStep (n0 :: rest) edges hwf2) hu
        exact reach_sub_closed adjb _ hclosed _ _ hadjreach hn0R
      rw [ccFoldAux_skip adjb fuel rest _ (fun n hn => hallR n hn)]

/-- C4 witness: a single isolated node: the empty-edge case gives one
component, mutual reachability holds trivially, and the reported count is
`1`. -/
theorem connectedComponents_cases_witness :
    (([nA] ≠ []) ∧ (nodeIds [nA]).Nodup ∧
      (∀ e ∈ ([] : List GEdge),
        e.source ∈ nodeIds [nA] ∧ e.target ∈ nodeIds [nA])) ∧
    (∃ m, computeMetrics [nA] [] = some m ∧
      (([] : List GEdge) = [] → m.connectedComponents = [nA].length) ∧
      ((∀ a ∈ nodeIds [nA], ∀ b ∈ nodeIds [nA], UndirReach [] a b) →
        m.connectedComponents = 1)) ∧
    (computeMetrics [nA] []).map Metrics.connectedComponents = some 1 :=
  ⟨⟨by decide, by decide, by simp⟩,
   connectedComponents_cases [nA] [] (by decide) (by decide) (by simp),
   by decide⟩

/-! ### C10: the language-color lookup -/

theorem lowerCode_idem (n : Nat) : lowerCode (lowerCode n) = lowerCode n := by
  unfold lowerCode
  by_cases h : 65 ≤ n ∧ n ≤ 90
  · rw [if_pos h, if_neg (by omega)]
  · rw [if_neg h, if_neg h]

theorem isWsCode_lowerCode (n : Nat) : isWsCode (lowerCode n) = isWsCode n := by
  unfold lowerCode isWsCode
  by_cases h : 65 ≤ n ∧ n ≤ 90
  · rw [if_pos h, decide_eq_false (by omega), decide_eq_false (by omega)]
  · rw [if_neg h]

theorem toLowerCodes_idem (l : List Nat) :
    toLowerCodes (toLowerCodes l) = toLowerCodes l := by
  unfold toLowerCodes
  rw [List.map_map]
  exact List.map_congr_left (fun a _ => lowerCode_idem a)

theorem trimCodes_toLower_comm (l : List Nat) :
    trimCodes (toLowerCodes l) = toLowerCodes (trimCodes l) := by
  have hcomp : (isWsCode ∘ lowerCode) = isWsCode := funext isWsCode_lowerCode
  unfold trimCodes toLowerCodes
  rw [List.dropWhile_map, hcomp, ← List.map_reverse, List.dropWhile_map, hcomp,
    ← List.map_reverse]

theorem dropWhile_head_false (p : Nat → Bool) :
    ∀ (l : List Nat) (a : Nat), (l.dropWhile p).head? = some a → p a = false := by
  intro l
  induction l with
  | nil =>
    intro a h
    cases h
  | cons b t ih =>
    intro a h
    by_cases hb : p b = true
    · rw [List.dropWhile_cons_of_pos hb] at h
      exact ih a h
    · rw [List.dropWhile_cons_of_neg hb] at h
      have hba : b = a := by simpa using h
      subst hba
      simpa using hb

theorem dropWhile_eq_self_of_head (p : Nat → Bool) (l : List Nat)
    (hl : ∀ a, l.head? = some a → p a = false) : l.dropWhile p = l := by
  cases l with
  | nil => rfl
  | cons b t =>
    have hb : p b = false := hl b rfl
    rw [List.dropWhile_cons_of_neg (by simp [hb])]

theorem trimCodes_head_false (l : List Nat) :
    ∀ a : Nat, (trimCodes l).head? = some a → isWsCode a = false := by
  intro a h
  unfold trimCodes at h
  rw [List.head?_reverse] at h
  rcases List.dropWhile_suffix (l := (l.dropWhile isWsCode).reverse) isWsCode with
    ⟨pre, hpre⟩
  have hy : ((l.dropWhile isWsCode).reverse).getLast? = some a := by
    rw [← hpre, List.getLast?_append, h]
    rfl
  rw [List.getLast?_reverse] at hy
  exact dropWhile_head_false _ _ _ hy

theorem trimCodes_last_false (l : List Nat) :
    ∀ a : Nat, (trimCodes l).getLast? = some a → isWsCode a = false := by
  intro a h
  unfold trimCodes at h
  rw [List.getLast?_reverse] at h
  exact dropWhile_head_false _ _ _ h

theorem trimCodes_eq_self (l : List Nat)
    (hhead : ∀ a, l.head? = some a → isWsCode a = false)
    (hlast : ∀ a, l.getLast? = some a → isWsCode a = false) :
    trimCodes l = l := by
  unfold trimCodes
  have h1 : l.dropWhile isWsCode = l := dropWhile_eq_self_of_head _ _ hhead
  have h2 : l.reverse.dropWhile isWsCode = l.reverse := by
    apply dropWhile_eq_self_of_head
    intro a h
    rw [List.head?_reverse] at h
    exact hlast a h
  rw [h1, h2, List.reverse_reverse]

theorem trimCodes_idem (l : List Nat) : trimCodes (trimCodes l) = trimCodes l :=
  trimCodes_eq_self _ (trimCodes_head_false l) (trimCodes_last_false l)

theorem normalize_idem (s : List Nat) :
    trimCodes (toLowerCodes (trimCodes (toLowerCodes s))) =
      trimCodes (toLowerCodes s) := by
  rw [← trimCodes_toLower_comm, toLowerCodes_idem, trimCodes_idem]

/-- C10 counterexample: the input `"constructor"` normalises to itself,
misses every table entry, but the object lookup hits the truthy
`Object.prototype.constructor`, so `getLanguageColor` returns that
inherited non-string value — neither a table color nor the `#9a9a9a`
default the claim promises. -/
theorem getLanguageColor_proto_leak :
    getLanguageColor (strCodes "constructor") =
      JsValue.protoInherited (strCodes "constructor") ∧
    getLanguageColor (strCodes "constructor") ≠
      JsValue.str (strCodes "#9a9a9a") ∧
    getLanguageColor (strCodes "__proto__") =
      JsValue.protoInherited (strCodes "__proto__") := by
  refine ⟨by decide, by decide, by decide⟩

/-- C10 amended: `getLanguageColor` returns the table entry of the
lower-cased, trimmed input when one exists; when none exists it returns the
default `#9a9a9a` *unless* the normalised input is a property name
inherited from `Object.prototype` (e.g. `constructor`, `__proto__`), in
which case the truthy inherited non-color value is returned and the `||`
fallback is bypassed.  The lookup remains insensitive to letter case and
surrounding whitespace: feeding it the already-normalised string gives the
same result. -/
theorem getLanguageColor_lookup_semantics (s : List Nat) :
    (∀ p : List Nat × List Nat,
      LANGUAGE_COLORS.find? (fun q => q.1 == trimCodes (toLowerCodes s)) = some p →
      getLanguageColor s = JsValue.str p.2) ∧
    (LANGUAGE_COLORS.find? (fun q => q.1 == trimCodes (toLowerCodes s)) = none →
      OBJECT_PROTO_KEYS.contains (trimCodes (toLowerCodes s)) = false →
      getLanguageColor s = JsValue.str (strCodes "#9a9a9a")) ∧
    (LANGUAGE_COLORS.find? (fun q => q.1 == trimCodes (toLowerCodes s)) = none →
      OBJECT_PROTO_KEYS.contains (trimCodes (toLowerCodes s)) = true →
      getLanguageColor s = JsValue.protoInherited (trimCodes (toLowerCodes s))) ∧
    getLanguageColor s = getLanguageColor (trimCodes (toLowerCodes s)) := by
  refine ⟨?_, ?_, ?_, ?_⟩
  · intro p hp
    simp only [getLanguageColor]
    rw [hp]
  · intro hp hc
    simp only [getLanguageColor]
    rw [hp, hc]
    simp
  · intro hp hc
    simp only [getLanguageColor]
    rw [hp, hc]
    simp
  · simp only [getLanguageColor]
    rw [normalize_idem]

/-- C10 amended witness: `"  TypeScript "` hits the table, `"klingon"`
falls back to the default, `"constructor"` leaks the inherited prototype
value, and the lookup agrees with its normalised form. -/
theorem getLanguageColor_lookup_semantics_witness :
    getLanguageColor (strCodes "  TypeScript ") =
      JsValue.str (strCodes "#3178c6") ∧
    getLanguageColor (strCodes "klingon") =
      JsValue.str (strCodes "#9a9a9a") ∧
    getLanguageColor (strCodes "constructor") =
      JsValue.protoInherited (trimCodes (toLowerCodes (strCodes "constructor"))) ∧
    getLanguageColor (strCodes "  TypeScript ") =
      getLanguageColor (trimCodes (toLowerCodes (strCodes "  TypeScript "))) :=
  ⟨(getLanguageColor_lookup_semantics (strCodes "  TypeScript ")).1
      (strCodes "typescript", strCodes "#3178c6") (by decide),
   (getLanguageColor_lookup_semantics (strCodes "klingon")).2.1
      (by decide) (by decide),
   (getLanguageColor_lookup_semantics (strCodes "constructor")).2.2.1
      (by decide) (by decide),
   (getLanguageColor_lookup_semantics (strCodes "  TypeScript ")).2.2.2⟩

end DepGraph
